import Mathlib

/-!
Shallow embedding of the Kapua school-management data model
(`kapua/courses/models.py`, `kapua/students/models.py`,
`kapua/students/urls.py`).

Conventions of the embedding:
* Database primary keys and foreign keys are `Nat`; an unset primary key
  (a Django model instance not yet persisted) is `Option Nat` = `none`.
* `DateField` values are `Nat` (days); `DateTimeField` values are `Nat`.
* Nullable columns (`null=True`) are `Option` fields.
* A database table is a `List` of records; `Model.objects` queries become
  list filters.
* Persistence operations (`save`, insert, delete) become pure functions on
  the table state; where the framework rejects a record (a declared
  `unique=True` constraint) the operation returns `Option` and rejection
  is `none`.
-/

/-- Whitespace for the purposes of slugification. -/
def isSpaceChar (c : Char) : Bool :=
  c = ' ' || c = '\t' || c = '\n' || c = '\r'

/-- A character kept by the first slugification pass: word characters
(alphanumerics and underscore), whitespace and hyphens. -/
def isSlugKept (c : Char) : Bool :=
  c.isAlphanum || c = '_' || isSpaceChar c || c = '-'

/-- Collapse every run of whitespace and hyphens into a single hyphen. -/
def collapseDashes : List Char → List Char
  | [] => []
  | c :: cs =>
    let rest := collapseDashes cs
    if isSpaceChar c || c = '-' then
      match rest with
      | '-' :: _ => rest
      | _ => '-' :: rest
    else
      c :: rest

/-- Modelled from the spec: `deterministic-slugify(name)`.  The slugify
function itself is framework code not under `src/`
(`django.template.defaultfilters.slugify`): drop every character that is
not a word character, whitespace or a hyphen; strip surrounding
whitespace; lowercase; collapse runs of whitespace and hyphens into a
single hyphen.  The theorems below depend only on this being a
deterministic function of the name. -/
def slugify (s : String) : String :=
  let kept := s.data.filter isSlugKept
  let stripped := ((kept.dropWhile isSpaceChar).reverse.dropWhile isSpaceChar).reverse
  let lowered := stripped.map Char.toLower
  ⟨collapseDashes lowered⟩

/-- Model of `courses.models.SubjectGroup`: name and slug columns; `id` is the
automatic primary key, `none` until first saved. -/
structure SubjectGroup where
  id : Option Nat
  name : String
  slug : String
deriving DecidableEq

/-- Embedding of `SubjectGroup.save`: if the instance has no primary key yet, set
`slug = slugify(name)`; then persist via `super().save()`, which assigns
a fresh primary key on insert (`freshId`) and keeps it on update. -/
def SubjectGroup.save (self : SubjectGroup) (freshId : Nat) : SubjectGroup :=
  if self.id = none then
    { self with slug := slugify self.name, id := some freshId }
  else
    self

/-- Model of `courses.models.Subject`: ministry code, name, slug and a foreign key
to `SubjectGroup`. -/
structure Subject where
  id : Option Nat
  ministry_code : String
  name : String
  slug : String
  group : Nat
deriving DecidableEq

/-- Embedding of `Subject.save`: same first-save slug logic as `SubjectGroup.save`. -/
def Subject.save (self : Subject) (freshId : Nat) : Subject :=
  if self.id = none then
    { self with slug := slugify self.name, id := some freshId }
  else
    self

/-- Model of `courses.models.Schedule`: a calendar attached to a course. -/
structure Schedule where
  pk : Nat
  name : String
  course : Nat
deriving DecidableEq

/-- Model of `courses.models.Enrolment`: a student enrolled in a course schedule
for a length of time; both dates are non-nullable. -/
structure EnrolmentC where
  pk : Nat
  student : Nat
  schedule : Nat
  start : Nat
  endDate : Nat
deriving DecidableEq

/-- Embedding of `Schedule.get_current_students`, exactly as written in the source:
`Enrolment.objects.filter(pk=self.pk).filter(start__lte=today).filter(end__gte=today)`.
Note the first filter compares the enrolment primary key with the
schedule primary key. -/
def Schedule.get_current_students (self : Schedule) (enrolments : List EnrolmentC)
    (today : Nat) : List EnrolmentC :=
  ((enrolments.filter (fun e => e.pk = self.pk)).filter
      (fun e => e.start ≤ today)).filter
    (fun e => today ≤ e.endDate)

/-- The behaviour the claim states (written from the claim, for
comparison with `Schedule.get_current_students`): the enrolments whose
`schedule` foreign key is this schedule and whose date range contains
today. -/
def Schedule.currentStudentsClaim (self : Schedule) (enrolments : List EnrolmentC)
    (today : Nat) : List EnrolmentC :=
  enrolments.filter (fun e => e.schedule = self.pk && e.start ≤ today && today ≤ e.endDate)

/-- Model of `students.models.Student`.  Columns follow the source: `person` and
`ministry_id` are declared `unique=True`; nullable columns are `Option`.
`fulltime_equivalent` (a 1-decimal-place decimal) is carried in tenths. -/
structure Student where
  pk : Nat
  person : Nat
  ministry_id : Nat
  orrs : Char
  funding_year_level : Nat
  student_type : Nat
  zoning_status : Nat
  tuition_fee : Option Nat
  fulltime_equivalent : Option Nat
  exchange_scheme : Option Nat
  boarding_status : Bool
  eligibility_criteria : Option Nat
  year_level : Nat
deriving DecidableEq

/-- Inserting a `Student`: the declared `unique=True` constraints on
`ministry_id` and `person` reject a record that duplicates a stored
value; otherwise the record is appended. -/
def insertStudent (db : List Student) (s : Student) : Option (List Student) :=
  if db.any (fun t => t.ministry_id = s.ministry_id) then none
  else if db.any (fun t => t.person = s.person) then none
  else some (db ++ [s])

/-- Student-table states reachable by inserts from the empty table. -/
inductive ReachableStudents : List Student → Prop where
  | nil : ReachableStudents []
  | step (db db' : List Student) (s : Student) :
      ReachableStudents db → insertStudent db s = some db' → ReachableStudents db'

/-- Model of `students.models.Enrolment`: school, start date, and a nullable end
date.  No other constraint is declared on this model. -/
structure EnrolmentS where
  school : Nat
  start : Nat
  endDate : Option Nat
deriving DecidableEq

/-- Inserting a `students.Enrolment`: the model declares no validation
beyond the column types, so every insert succeeds. -/
def insertEnrolmentS (db : List EnrolmentS) (e : EnrolmentS) : List EnrolmentS :=
  db ++ [e]

/-- Updating the stored `students.Enrolment` in row `i` (the model has
only the automatic row identity): the new field values are stored with
no validation. -/
def updateEnrolmentS (db : List EnrolmentS) (i : Nat) (e : EnrolmentS) : List EnrolmentS :=
  db.set i e

/-- Table states of `students.Enrolment` reachable by inserts and
updates from the empty table. -/
inductive ReachableEnrolmentsS : List EnrolmentS → Prop where
  | nil : ReachableEnrolmentsS []
  | insert (db : List EnrolmentS) (e : EnrolmentS) :
      ReachableEnrolmentsS db → ReachableEnrolmentsS (insertEnrolmentS db e)
  | update (db : List EnrolmentS) (i : Nat) (e : EnrolmentS) :
      ReachableEnrolmentsS db → ReachableEnrolmentsS (updateEnrolmentS db i e)

/-- Inserting a `courses.Enrolment`: that model, too, declares no
validation beyond the column types, so every insert succeeds. -/
def insertEnrolmentC (db : List EnrolmentC) (e : EnrolmentC) : List EnrolmentC :=
  db ++ [e]

/-- Updating a stored `courses.Enrolment` by its primary key: the new
field values are stored with no validation. -/
def updateEnrolmentC (db : List EnrolmentC) (e : EnrolmentC) : List EnrolmentC :=
  db.map (fun x => if x.pk = e.pk then e else x)

/-- Table states of `courses.Enrolment` reachable by inserts and updates
from the empty table. -/
inductive ReachableEnrolmentsC : List EnrolmentC → Prop where
  | nil : ReachableEnrolmentsC []
  | insert (db : List EnrolmentC) (e : EnrolmentC) :
      ReachableEnrolmentsC db → ReachableEnrolmentsC (insertEnrolmentC db e)
  | update (db : List EnrolmentC) (e : EnrolmentC) :
      ReachableEnrolmentsC db → ReachableEnrolmentsC (updateEnrolmentC db e)

/-- Model of `courses.models.Attendance`: was the student at the activity?  An
automatic primary key plus three foreign keys; no uniqueness constraint
is declared. -/
structure Attendance where
  pk : Nat
  activity : Nat
  student : Nat
  code : Char
deriving DecidableEq

/-- Inserting an `Attendance` record: the automatic primary key is the
next counter value; no other column is checked, so the insert always
succeeds. -/
def insertAttendance (db : List Attendance) (activity student : Nat)
    (code : Char) : List Attendance :=
  db ++ [⟨db.length, activity, student, code⟩]

/-- The kinds of entity a generic (polymorphic) reference can point at.
The source docstrings name courses and activities as targets of
`Assessment.content_object` and `Page.content_object`. -/
inductive ContentKind where
  | course
  | activity
deriving DecidableEq

/-- Model of `courses.models.Course`: the main object the others point to. -/
structure Course where
  pk : Nat
  subject : Option Nat
  instructional_year_level : Option Nat
  name : String
deriving DecidableEq

/-- Model of `courses.models.Activity`: a calendar event belonging to schedules. -/
structure Activity where
  pk : Nat
  schedules : List Nat
  subject : String
  track_attendance : Bool
  start : Nat
  endTime : Nat
deriving DecidableEq

/-- Model of `courses.models.Assessment`: a name plus a generic relationship
`(content_type, object_id)` that can link to anything. -/
structure Assessment where
  pk : Nat
  name : Option String
  content_type : ContentKind
  object_id : Nat
deriving DecidableEq

/-- Model of `courses.models.Page` (an MPTT model): a node of the course content
tree, with a nullable parent pointer and an optional generic
`(content_type, object_id)` reference. -/
structure Page where
  pid : Nat
  name : String
  content : String
  course : Nat
  parent : Option Nat
  content_type : Option ContentKind
  object_id : Option Nat
deriving DecidableEq

/-- The primary keys present in a page table. -/
def pageIds (db : List Page) : List Nat :=
  db.map Page.pid

/-- The parent pointer of the page with primary key `x`, if any. -/
def parentOf (db : List Page) (x : Nat) : Option Nat :=
  (db.find? (fun p => p.pid = x)).bind Page.parent

/-- Relation `Anc db x y`: `y` is a proper ancestor of `x`, i.e. following parent
pointers from `x` reaches `y` after at least one step. -/
inductive Anc (db : List Page) : Nat → Nat → Prop where
  | base (x y : Nat) : parentOf db x = some y → Anc db x y
  | step (x y z : Nat) : parentOf db x = some y → Anc db y z → Anc db x z

/-- Reparenting the page `x` to `r`, leaving every other record as it
was (the update half of a hierarchy move). -/
def reparent (db : List Page) (x : Nat) (r : Option Nat) : List Page :=
  db.map (fun p => if p.pid = x then { p with parent := r } else p)

/-- Modelled from the spec: the page-table operations.  The hierarchy
library (`mptt`, not under `src/`) maintains the tree: a page is created
with a fresh primary key and a parent that is either absent or an
existing page, and a move is rejected when the new parent is the page
itself or one of its descendants ("`Page` parent/child must not cycle
(tree invariant enforced by the hierarchy library)"). -/
inductive PageStep : List Page → List Page → Prop where
  | add (db : List Page) (p : Page) :
      (∀ q ∈ db, q.pid ≠ p.pid) →
      (∀ r, p.parent = some r → r ∈ pageIds db) →
      PageStep db (db ++ [p])
  | move (db : List Page) (x : Nat) (r : Option Nat) :
      x ∈ pageIds db →
      (∀ q, r = some q → q ∈ pageIds db ∧ q ≠ x ∧ ¬ Anc db q x) →
      PageStep db (reparent db x r)

/-- Page-table states reachable from the empty table. -/
inductive ReachablePages : List Page → Prop where
  | nil : ReachablePages []
  | step (db db' : List Page) : ReachablePages db → PageStep db db' → ReachablePages db'

/-- Every parent pointer targets a page present in the table. -/
def ClosedPages (db : List Page) : Prop :=
  ∀ p ∈ db, ∀ r, p.parent = some r → r ∈ pageIds db

/-- No page is a proper ancestor of itself. -/
def NoCycle (db : List Page) : Prop :=
  ∀ x, ¬ Anc db x x

/-- The database state the claims about polymorphic references range
over: the target tables plus the two referencing tables. -/
structure CoursesDB where
  courses : List Course
  activities : List Activity
  assessments : List Assessment
  pages : List Page
deriving DecidableEq

/-- Modelled from the spec: deleting the entity a generic reference
points at.  "There is no ownership — deleting the referenced entity does
not cascade": the delete removes the target row from its own table and
touches nothing else; the framework places no foreign-key constraint
behind a generic relation. -/
def deleteEntity (db : CoursesDB) (k : ContentKind) (i : Nat) : CoursesDB :=
  match k with
  | .course => { db with courses := db.courses.filter (fun c => c.pk ≠ i) }
  | .activity => { db with activities := db.activities.filter (fun a => a.pk ≠ i) }

/-- Resolving a generic `(content_type, object_id)` reference at read
time: does the referenced row exist? -/
def resolveRef (db : CoursesDB) (k : ContentKind) (i : Nat) : Bool :=
  match k with
  | .course => db.courses.any (fun c => c.pk = i)
  | .activity => db.activities.any (fun a => a.pk = i)

/-- Model of `students/urls.py`: the url patterns.  The two commented-out entries
are omitted; the single active entry maps the regex matching the empty
remaining path to the `index` view of `kapua.students.views`. -/
def urlpatterns : List (String × String) :=
  [("^$", "index")]

/-- Splitting an anchored regex `^lit$` into its literal middle part;
`none` when the pattern is not of that shape. -/
def splitAnchors (cs : List Char) : Option (List Char) :=
  match cs with
  | '^' :: rest =>
    match rest.reverse with
    | '$' :: mid => some mid.reverse
    | _ => none
  | _ => none

/-- Matching one of this file's url regexes.  Every active pattern is an
anchored literal `^lit$`, which matches exactly the string `lit`. -/
def patternMatches (pat s : String) : Bool :=
  match splitAnchors pat.data with
  | some lit => s.data = lit
  | none => false

/-- Stripping the leading slash from a request path, as the framework
does before url resolution. -/
def stripSlash (path : String) : String :=
  match path.data with
  | '/' :: rest => ⟨rest⟩
  | _ => path

/-- Django url dispatch: strip the leading slash from the request path,
then take the first pattern that matches and return its view name. -/
def resolveUrl (path : String) : Option String :=
  (urlpatterns.find? (fun pv => patternMatches pv.1 (stripSlash path))).map Prod.snd

/-- A concrete schedule used in concrete evaluations below. -/
def schedX : Schedule := ⟨1, "Term 1", 1⟩

/-- A concrete enrolment belonging to `schedX` (its `schedule` key is 1)
whose own primary key is 2 and whose date range is `[0, 10]`. -/
def enrolX : EnrolmentC := ⟨2, 7, 1, 0, 10⟩

/-- A concrete student record. -/
def studentA : Student :=
  ⟨1, 100, 5550001, 'N', 9, 1, 3, none, none, none, false, some 1, 9⟩

/-- A concrete student with the same `ministry_id` as `studentA` but a
different person. -/
def studentB : Student :=
  ⟨2, 101, 5550001, 'N', 9, 1, 3, none, none, none, false, some 1, 9⟩

/-- A concrete student with the same `person` as `studentA` but a
different `ministry_id`. -/
def studentC : Student :=
  ⟨3, 100, 5550002, 'N', 9, 1, 3, none, none, none, false, some 1, 9⟩

/-- A concrete enrolment whose end date precedes its start date. -/
def badEnrolment : EnrolmentS := ⟨1, 5, some 3⟩

/-- A concrete enrolment with a well-ordered date range, to be spoiled
by an update. -/
def goodEnrolment : EnrolmentS := ⟨1, 0, some 10⟩

/-- A concrete `courses.Enrolment` whose end date precedes its start
date. -/
def badEnrolmentC : EnrolmentC := ⟨1, 7, 1, 5, 3⟩

/-- A concrete `courses.Enrolment` with a well-ordered date range and
the same primary key as `badEnrolmentC`, to be spoiled by an update. -/
def goodEnrolmentC : EnrolmentC := ⟨1, 7, 1, 0, 10⟩

/-- A concrete page with no parent. -/
def pageA : Page := ⟨1, "Home", "", 1, none, none, none⟩

/-- A concrete course targeted by the references below. -/
def courseX : Course := ⟨1, none, none, "Mathematics"⟩

/-- A concrete assessment referencing `courseX`. -/
def assessX : Assessment := ⟨1, some "Quiz", ContentKind.course, 1⟩

/-- A concrete page referencing `courseX`. -/
def pageX : Page := ⟨2, "Outline", "", 1, none, some ContentKind.course, some 1⟩

/-- A concrete database holding `courseX` and the records referencing it. -/
def dbX : CoursesDB := ⟨[courseX], [], [assessX], [pageX]⟩

/-- A concrete unsaved subject group. -/
def sgA : SubjectGroup := ⟨none, "Social Studies", ""⟩

/-- A concrete unsaved subject. -/
def subjA : Subject := ⟨none, "MA", "Mathematics", "", 1⟩

/-- Membership in `pageIds` is being the key of some record. -/
theorem mem_pageIds {db : List Page} {y : Nat} :
    y ∈ pageIds db ↔ ∃ q ∈ db, q.pid = y := by
  simp [pageIds]

/-- A parent pointer read through `parentOf` comes from a stored record. -/
theorem parentOf_eq_some {db : List Page} {x y : Nat}
    (h : parentOf db x = some y) : ∃ p ∈ db, p.parent = some y := by
  unfold parentOf at h
  cases hfind : db.find? (fun p => p.pid = x) with
  | none => rw [hfind] at h; cases h
  | some p =>
    rw [hfind] at h
    exact ⟨p, List.mem_of_find?_eq_some hfind, h⟩

/-- In a closed table, every parent read through `parentOf` is a stored key. -/
theorem parentOf_mem_ids {db : List Page} {x y : Nat}
    (hc : ClosedPages db) (h : parentOf db x = some y) : y ∈ pageIds db := by
  obtain ⟨p, hp, hpar⟩ := parentOf_eq_some h
  exact hc p hp y hpar

/-- Appending a record does not change the parent of a different key. -/
theorem parentOf_append_of_ne {db : List Page} {p : Page} {x : Nat}
    (hx : x ≠ p.pid) : parentOf (db ++ [p]) x = parentOf db x := by
  unfold parentOf
  rw [List.find?_append]
  have : [p].find? (fun q => q.pid = x) = none := by
    simp [List.find?_eq_none]
    intro h
    exact hx h.symm
  rw [this, Option.or_none]

/-- The parent of a freshly appended record is the record's own pointer. -/
theorem parentOf_append_self {db : List Page} {p : Page}
    (hfresh : ∀ q ∈ db, q.pid ≠ p.pid) :
    parentOf (db ++ [p]) p.pid = p.parent := by
  unfold parentOf
  rw [List.find?_append]
  have h1 : db.find? (fun q => q.pid = p.pid) = none := by
    rw [List.find?_eq_none]
    intro q hq
    simpa using hfresh q hq
  have h2 : [p].find? (fun q => q.pid = p.pid) = some p := by
    simp [List.find?_cons_of_pos]
  rw [h1, h2]
  rfl

/-- Ancestry is transitive. -/
theorem anc_trans {db : List Page} : ∀ {x y z : Nat},
    Anc db x y → Anc db y z → Anc db x z := by
  intro x y z h1
  induction h1 with
  | base a b hab => intro h2; exact Anc.step a b z hab h2
  | step a b c hab _hbc ih => intro h2; exact Anc.step a b z hab (ih h2)

/-- In a closed table, an ancestry chain of the extended table starting
at an old key stays inside the old table and never reaches the fresh key. -/
theorem anc_append_old {db : List Page} {p : Page}
    (hc : ClosedPages db) (hfresh : ∀ q ∈ db, q.pid ≠ p.pid) :
    ∀ x y, Anc (db ++ [p]) x y → x ≠ p.pid → Anc db x y ∧ y ≠ p.pid := by
  intro x y h
  induction h with
  | base a b hab =>
    intro hne
    have hab' : parentOf db a = some b := by
      rwa [parentOf_append_of_ne hne] at hab
    have hb : b ∈ pageIds db := parentOf_mem_ids hc hab'
    obtain ⟨q, hq, hqb⟩ := mem_pageIds.mp hb
    exact ⟨Anc.base a b hab', hqb ▸ hfresh q hq⟩
  | step a b c hab _hbc ih =>
    intro hne
    have hab' : parentOf db a = some b := by
      rwa [parentOf_append_of_ne hne] at hab
    have hb : b ∈ pageIds db := parentOf_mem_ids hc hab'
    obtain ⟨q, hq, hqb⟩ := mem_pageIds.mp hb
    obtain ⟨h1, h2⟩ := ih (hqb ▸ hfresh q hq)
    exact ⟨Anc.step a b c hab' h1, h2⟩

/-- Adding a page with a fresh key and an existing (or absent) parent
keeps the table closed. -/
theorem closed_add {db : List Page} {p : Page}
    (hc : ClosedPages db) (hpar : ∀ r, p.parent = some r → r ∈ pageIds db) :
    ClosedPages (db ++ [p]) := by
  intro q hq r hr
  have hids : pageIds (db ++ [p]) = pageIds db ++ [p.pid] := by
    simp [pageIds]
  rw [hids]
  rcases List.mem_append.mp hq with h | h
  · exact List.mem_append.mpr (Or.inl (hc q h r hr))
  · have : q = p := by simpa using h
    subst this
    exact List.mem_append.mpr (Or.inl (hpar r hr))

/-- Adding a page with a fresh key and an existing (or absent) parent
creates no cycle. -/
theorem noCycle_add {db : List Page} {p : Page}
    (hc : ClosedPages db) (hfresh : ∀ q ∈ db, q.pid ≠ p.pid)
    (hpar : ∀ r, p.parent = some r → r ∈ pageIds db)
    (hnc : NoCycle db) : NoCycle (db ++ [p]) := by
  intro x hx
  by_cases hxe : x = p.pid
  · subst hxe
    cases hx with
    | base _ y h =>
      rw [parentOf_append_self hfresh] at h
      obtain ⟨q, hq, hqy⟩ := mem_pageIds.mp (hpar _ h)
      exact hfresh q hq hqy
    | step _ y _ h hyx =>
      rw [parentOf_append_self hfresh] at h
      obtain ⟨q, hq, hqy⟩ := mem_pageIds.mp (hpar _ h)
      exact (anc_append_old hc hfresh y p.pid hyx (hqy ▸ hfresh q hq)).2 rfl
  · exact hnc x (anc_append_old hc hfresh x x hx hxe).1

/-- Reparenting does not change a record's primary key. -/
theorem reparent_pid (p : Page) (x : Nat) (r : Option Nat) :
    (if p.pid = x then { p with parent := r } else p).pid = p.pid := by
  split <;> rfl

/-- Reparenting does not change the set of primary keys. -/
theorem pageIds_reparent (db : List Page) (x : Nat) (r : Option Nat) :
    pageIds (reparent db x r) = pageIds db := by
  unfold pageIds reparent
  rw [List.map_map]
  apply List.map_congr_left
  intro p _
  exact reparent_pid p x r

/-- Looking a key up in the reparented table finds the updated record. -/
theorem find?_reparent (db : List Page) (x : Nat) (r : Option Nat) (y : Nat) :
    (reparent db x r).find? (fun p => p.pid = y) =
      (db.find? (fun p => p.pid = y)).map
        (fun p => if p.pid = x then { p with parent := r } else p) := by
  unfold reparent
  rw [List.find?_map]
  have hpred : ((fun p : Page => decide (p.pid = y)) ∘
      fun p => if p.pid = x then { p with parent := r } else p) =
      fun p : Page => decide (p.pid = y) := by
    funext p
    simp only [Function.comp_apply]
    rw [reparent_pid]
  rw [hpred]

/-- Reparenting `x` does not change the parent of a different key. -/
theorem parentOf_reparent_ne {db : List Page} {x : Nat} {r : Option Nat} {y : Nat}
    (hy : y ≠ x) : parentOf (reparent db x r) y = parentOf db y := by
  unfold parentOf
  rw [find?_reparent]
  cases hfind : db.find? (fun p => p.pid = y) with
  | none => rfl
  | some q =>
    have hq : q.pid = y := by simpa using List.find?_some hfind
    have : (if q.pid = x then { q with parent := r } else q) = q := by
      rw [if_neg]
      rw [hq]
      exact hy
    rw [Option.map_some', this]

/-- After reparenting `x` to `r`, any parent read at `x` is `r`. -/
theorem parentOf_reparent_self {db : List Page} {x : Nat} {r : Option Nat} {u : Nat} :
    parentOf (reparent db x r) x = some u → r = some u := by
  unfold parentOf
  rw [find?_reparent]
  cases hfind : db.find? (fun p => p.pid = x) with
  | none => intro h; cases h
  | some q =>
    have hq : q.pid = x := by simpa using List.find?_some hfind
    rw [Option.map_some', if_pos hq]
    exact fun h => h

/-- Decomposition of ancestry in the reparented table: a chain either
exists unchanged in the old table, or passes through the moved edge, in
which case its source reaches `x` and its target is reached from the new
parent. -/
theorem anc_reparent {db : List Page} {x : Nat} {r : Option Nat}
    (hg : ∀ q, r = some q → q ≠ x ∧ ¬ Anc db q x) :
    ∀ a b, Anc (reparent db x r) a b →
      Anc db a b ∨
        ((a = x ∨ Anc db a x) ∧ ∃ q, r = some q ∧ (b = q ∨ Anc db q b)) := by
  intro a b h
  induction h with
  | base u v huv =>
    by_cases hux : u = x
    · subst hux
      exact Or.inr ⟨Or.inl rfl, v, parentOf_reparent_self huv, Or.inl rfl⟩
    · rw [parentOf_reparent_ne hux] at huv
      exact Or.inl (Anc.base u v huv)
  | step u v w huv _hvw ih =>
    by_cases hux : u = x
    · subst hux
      have hr : r = some v := parentOf_reparent_self huv
      obtain ⟨hvx, hnc⟩ := hg v hr
      rcases ih with h1 | ⟨h2, _q, _hq, _h3⟩
      · exact Or.inr ⟨Or.inl rfl, v, hr, Or.inr h1⟩
      · rcases h2 with h2 | h2
        · exact absurd h2 hvx
        · exact absurd h2 hnc
    · rw [parentOf_reparent_ne hux] at huv
      rcases ih with h1 | ⟨h2, q, hq, h3⟩
      · exact Or.inl (Anc.step u v w huv h1)
      · refine Or.inr ⟨Or.inr ?_, q, hq, h3⟩
        rcases h2 with h2 | h2
        · exact h2 ▸ Anc.base u v huv
        · exact Anc.step u v x huv h2

/-- A guarded move keeps the table closed. -/
theorem closed_reparent {db : List Page} {x : Nat} {r : Option Nat}
    (hc : ClosedPages db) (hg : ∀ q, r = some q → q ∈ pageIds db) :
    ClosedPages (reparent db x r) := by
  intro p hp s hs
  rw [pageIds_reparent]
  obtain ⟨p0, hp0, hup⟩ := List.mem_map.mp hp
  subst hup
  by_cases h : p0.pid = x
  · rw [if_pos h] at hs
    exact hg s hs
  · rw [if_neg h] at hs
    exact hc p0 hp0 s hs

/-- A guarded move creates no cycle. -/
theorem noCycle_reparent {db : List Page} {x : Nat} {r : Option Nat}
    (hg : ∀ q, r = some q → q ∈ pageIds db ∧ q ≠ x ∧ ¬ Anc db q x)
    (hnc : NoCycle db) : NoCycle (reparent db x r) := by
  intro a ha
  have hg' : ∀ q, r = some q → q ≠ x ∧ ¬ Anc db q x :=
    fun q hq => ⟨(hg q hq).2.1, (hg q hq).2.2⟩
  rcases anc_reparent hg' a a ha with h | ⟨h2, q, hq, h3⟩
  · exact hnc a h
  · obtain ⟨_, hqx, hqnc⟩ := hg q hq
    rcases h2 with h2 | h2
    · rcases h3 with h3 | h3
      · exact hqx (h3.symm.trans h2)
      · exact hqnc (h2 ▸ h3)
    · rcases h3 with h3 | h3
      · exact hqnc (h3 ▸ h2)
      · exact hqnc (anc_trans h3 h2)

/-- Every reachable page table is closed and acyclic. -/
theorem reachable_pages_inv {db : List Page} (h : ReachablePages db) :
    ClosedPages db ∧ NoCycle db := by
  induction h with
  | nil =>
    constructor
    · intro p hp
      cases hp
    · intro x hx
      cases hx with
      | base _ _ h => simp [parentOf] at h
      | step _ _ _ h _ => simp [parentOf] at h
  | step db db' _hr hstep ih =>
    cases hstep with
    | add p hfresh hpar =>
      exact ⟨closed_add ih.1 hpar, noCycle_add ih.1 hfresh hpar ih.2⟩
    | move x r _hmem hg =>
      exact ⟨closed_reparent ih.1 (fun q hq => (hg q hq).1),
        noCycle_reparent hg ih.2⟩

/-- C1 (code-bug evidence): at a state holding one enrolment that belongs
to schedule `schedX` (its `schedule` foreign key is `schedX.pk = 1`) with
today inside the enrolment's date range, `get_current_students` — which
filters on the enrolment primary key instead of the schedule foreign
key — returns nothing, while the behaviour the claim states returns the
enrolment. -/
theorem get_current_students_wrong_filter :
    schedX.get_current_students [enrolX] 5 = [] ∧
    Schedule.currentStudentsClaim schedX [enrolX] 5 = [enrolX] := by
  constructor <;> rfl

/-- C2: for `SubjectGroup` and `Subject`, the first save sets the slug to
the deterministic slugification of the name at creation time, and any
later save — one made after a rename included — leaves the slug field
unchanged. -/
theorem slug_set_once_stable :
    (∀ (g : SubjectGroup) (f : Nat), g.id = none →
      (g.save f).slug = slugify g.name) ∧
    (∀ (g : SubjectGroup) (f : Nat), g.id ≠ none →
      (g.save f).slug = g.slug) ∧
    (∀ (g : SubjectGroup) (f f' : Nat) (n : String), g.id = none →
      (({ g.save f with name := n }).save f').slug = slugify g.name) ∧
    (∀ (s : Subject) (f : Nat), s.id = none →
      (s.save f).slug = slugify s.name) ∧
    (∀ (s : Subject) (f : Nat), s.id ≠ none →
      (s.save f).slug = s.slug) ∧
    (∀ (s : Subject) (f f' : Nat) (n : String), s.id = none →
      (({ s.save f with name := n }).save f').slug = slugify s.name) := by
  refine ⟨?_, ?_, ?_, ?_, ?_, ?_⟩
  · intro g f h
    simp [SubjectGroup.save, h]
  · intro g f h
    simp [SubjectGroup.save, h]
  · intro g f f' n h
    simp [SubjectGroup.save, h]
  · intro s f h
    simp [Subject.save, h]
  · intro s f h
    simp [Subject.save, h]
  · intro s f f' n h
    simp [Subject.save, h]

/-- Witness for C2 at concrete records: the slug survives a rename and
equals the slugification of the creation-time name. -/
theorem slug_set_once_stable_witness :
    ((({ sgA.save 1 with name := "History" }).save 2).slug = slugify sgA.name) ∧
    ((subjA.save 1).slug = slugify subjA.name) :=
  ⟨slug_set_once_stable.2.2.1 sgA 1 2 "History" rfl,
   slug_set_once_stable.2.2.2.1 subjA 1 rfl⟩

/-- C9: before the first persist, whatever slug the caller assigned is
overwritten on save by the slugification of the name. -/
theorem caller_slug_overwritten :
    (∀ (g : SubjectGroup) (f : Nat) (pre : String), g.id = none →
      (({ g with slug := pre }).save f).slug = slugify g.name) ∧
    (∀ (s : Subject) (f : Nat) (pre : String), s.id = none →
      (({ s with slug := pre }).save f).slug = slugify s.name) := by
  constructor
  · intro g f pre h
    simp [SubjectGroup.save, h]
  · intro s f pre h
    simp [Subject.save, h]

/-- Witness for C9 at concrete records: a caller-assigned slug does not
survive the first save. -/
theorem caller_slug_overwritten_witness :
    ((({ sgA with slug := "my-slug" }).save 1).slug = slugify sgA.name) ∧
    ((({ subjA with slug := "my-slug" }).save 1).slug = slugify subjA.name) :=
  ⟨caller_slug_overwritten.1 sgA 1 "my-slug" rfl,
   caller_slug_overwritten.2 subjA 1 "my-slug" rfl⟩

/-- C3 counterexample: in both `Enrolment` models a record whose end
date (3) precedes its start date (5) is a reachable stored state — no
insert or update operation rejects it — so the stated invariant fails. -/
theorem enrolment_dates_unchecked_cex :
    ReachableEnrolmentsS [badEnrolment] ∧
    ¬ (∀ e ∈ [badEnrolment], ∀ d, e.endDate = some d → e.start ≤ d) ∧
    ReachableEnrolmentsC [badEnrolmentC] ∧
    ¬ (∀ e ∈ [badEnrolmentC], e.start ≤ e.endDate) :=
  ⟨ReachableEnrolmentsS.insert [] badEnrolment ReachableEnrolmentsS.nil,
   by decide,
   ReachableEnrolmentsC.insert [] badEnrolmentC ReachableEnrolmentsC.nil,
   by decide⟩

/-- C3 amended: neither `Enrolment` model enforces an ordering between
`start` and `end`; inserts and updates carry no validation, so for
arbitrary field values — an end date preceding the start date included —
the inserted record and the updated record are stored as given, and the
resulting states are reachable, in both `students.Enrolment` and
`courses.Enrolment`. -/
theorem enrolment_dates_unchecked
    (db : List EnrolmentS) (hdb : ReachableEnrolmentsS db) (i : Nat)
    (hi : i < db.length) (e : EnrolmentS)
    (db2 : List EnrolmentC) (hdb2 : ReachableEnrolmentsC db2) (e2 : EnrolmentC)
    (hpk : ∃ x ∈ db2, x.pk = e2.pk) :
    e ∈ insertEnrolmentS db e ∧
    ReachableEnrolmentsS (insertEnrolmentS db e) ∧
    e ∈ updateEnrolmentS db i e ∧
    ReachableEnrolmentsS (updateEnrolmentS db i e) ∧
    e2 ∈ insertEnrolmentC db2 e2 ∧
    ReachableEnrolmentsC (insertEnrolmentC db2 e2) ∧
    e2 ∈ updateEnrolmentC db2 e2 ∧
    ReachableEnrolmentsC (updateEnrolmentC db2 e2) := by
  refine ⟨?_, ReachableEnrolmentsS.insert db e hdb, ?_,
    ReachableEnrolmentsS.update db i e hdb, ?_,
    ReachableEnrolmentsC.insert db2 e2 hdb2, ?_,
    ReachableEnrolmentsC.update db2 e2 hdb2⟩
  · simp [insertEnrolmentS]
  · exact List.mem_set db i hi e
  · simp [insertEnrolmentC]
  · obtain ⟨x, hx, hxpk⟩ := hpk
    exact List.mem_map.mpr ⟨x, hx, by simp [hxpk]⟩

/-- Witness for the amended C3: starting from reachable one-record
tables holding well-ordered enrolments, inserting the inverted-dates
record succeeds in both models, and updating the stored record to the
inverted dates succeeds in both models. -/
theorem enrolment_dates_unchecked_witness :
    badEnrolment ∈ insertEnrolmentS [goodEnrolment] badEnrolment ∧
    ReachableEnrolmentsS (insertEnrolmentS [goodEnrolment] badEnrolment) ∧
    badEnrolment ∈ updateEnrolmentS [goodEnrolment] 0 badEnrolment ∧
    ReachableEnrolmentsS (updateEnrolmentS [goodEnrolment] 0 badEnrolment) ∧
    badEnrolmentC ∈ insertEnrolmentC [goodEnrolmentC] badEnrolmentC ∧
    ReachableEnrolmentsC (insertEnrolmentC [goodEnrolmentC] badEnrolmentC) ∧
    badEnrolmentC ∈ updateEnrolmentC [goodEnrolmentC] badEnrolmentC ∧
    ReachableEnrolmentsC (updateEnrolmentC [goodEnrolmentC] badEnrolmentC) :=
  enrolment_dates_unchecked [goodEnrolment]
    (ReachableEnrolmentsS.insert [] goodEnrolment ReachableEnrolmentsS.nil)
    0 (by decide) badEnrolment
    [goodEnrolmentC]
    (ReachableEnrolmentsC.insert [] goodEnrolmentC ReachableEnrolmentsC.nil)
    badEnrolmentC ⟨goodEnrolmentC, by simp, by decide⟩

/-- C10: no uniqueness constraint is declared on `Attendance`: two
inserts with the same activity and student both succeed and the two
distinct records coexist. -/
theorem attendance_no_uniqueness :
    insertAttendance (insertAttendance [] 1 2 'P') 1 2 'P' =
      [⟨0, 1, 2, 'P'⟩, ⟨1, 1, 2, 'P'⟩] ∧
    (⟨0, 1, 2, 'P'⟩ : Attendance) ≠ (⟨1, 1, 2, 'P'⟩ : Attendance) ∧
    (⟨0, 1, 2, 'P'⟩ : Attendance).activity = (⟨1, 1, 2, 'P'⟩ : Attendance).activity ∧
    (⟨0, 1, 2, 'P'⟩ : Attendance).student = (⟨1, 1, 2, 'P'⟩ : Attendance).student := by
  refine ⟨rfl, ?_, rfl, rfl⟩
  decide

/-- C4: inserting a student whose `ministry_id` duplicates a stored one
is rejected, and every reachable student table has pairwise distinct
`ministry_id` values. -/
theorem ministry_id_unique :
    (∀ (db : List Student) (s : Student),
      (∃ t ∈ db, t.ministry_id = s.ministry_id) → insertStudent db s = none) ∧
    (∀ db, ReachableStudents db →
      db.Pairwise (fun a b => a.ministry_id ≠ b.ministry_id)) := by
  constructor
  · intro db s hex
    obtain ⟨t, ht, hts⟩ := hex
    have hcond : db.any (fun u => u.ministry_id = s.ministry_id) = true :=
      List.any_eq_true.mpr ⟨t, ht, by simp [hts]⟩
    unfold insertStudent
    rw [if_pos hcond]
  · intro db h
    induction h with
    | nil => exact List.Pairwise.nil
    | step db db' s _hr hins ih =>
      unfold insertStudent at hins
      split at hins
      · cases hins
      · split at hins
        · cases hins
        · rename_i h1 h2
          injection hins with hins
          subst hins
          rw [List.pairwise_append]
          refine ⟨ih, List.pairwise_singleton _ _, ?_⟩
          intro a ha b hb
          have hb' : b = s := by simpa using hb
          subst hb'
          intro he
          exact h1 (List.any_eq_true.mpr ⟨a, ha, by simp [he]⟩)

/-- Witness for C4: the duplicate-`ministry_id` insert is rejected, and a
concrete reachable table is pairwise distinct. -/
theorem ministry_id_unique_witness :
    insertStudent [studentA] studentB = none ∧
    List.Pairwise (fun a b => a.ministry_id ≠ b.ministry_id) [studentA] :=
  ⟨ministry_id_unique.1 [studentA] studentB ⟨studentA, by simp, by decide⟩,
   ministry_id_unique.2 [studentA]
     (ReachableStudents.step [] [studentA] studentA ReachableStudents.nil rfl)⟩

/-- C7: a `Student` row references exactly one `Person`; inserting a
student whose `person` duplicates a stored one is rejected; every
reachable student table has pairwise distinct `person` values. -/
theorem student_person_unique :
    (∀ s : Student, ∃! p : Nat, s.person = p) ∧
    (∀ (db : List Student) (s : Student),
      (∃ t ∈ db, t.person = s.person) → insertStudent db s = none) ∧
    (∀ db, ReachableStudents db →
      db.Pairwise (fun a b => a.person ≠ b.person)) := by
  refine ⟨?_, ?_, ?_⟩
  · exact fun s => ⟨s.person, rfl, fun y hy => hy.symm⟩
  · intro db s hex
    obtain ⟨t, ht, hts⟩ := hex
    have hcond : (db.any fun u => decide (u.person = s.person)) = true :=
      List.any_eq_true.mpr ⟨t, ht, by simp [hts]⟩
    unfold insertStudent
    by_cases hmin : (db.any fun u => decide (u.ministry_id = s.ministry_id)) = true
    · rw [if_pos hmin]
    · rw [if_neg hmin, if_pos hcond]
  · intro db h
    induction h with
    | nil => exact List.Pairwise.nil
    | step db db' s _hr hins ih =>
      unfold insertStudent at hins
      split at hins
      · cases hins
      · split at hins
        · cases hins
        · rename_i h1 h2
          injection hins with hins
          subst hins
          rw [List.pairwise_append]
          refine ⟨ih, List.pairwise_singleton _ _, ?_⟩
          intro a ha b hb
          have hb' : b = s := by simpa using hb
          subst hb'
          intro he
          exact h2 (List.any_eq_true.mpr ⟨a, ha, by simp [he]⟩)

/-- Witness for C7: the duplicate-`person` insert is rejected, a concrete
reachable table is pairwise distinct, and a concrete row has exactly one
person. -/
theorem student_person_unique_witness :
    (∃! p : Nat, studentA.person = p) ∧
    insertStudent [studentA] studentC = none ∧
    List.Pairwise (fun a b => a.person ≠ b.person) [studentA] :=
  ⟨student_person_unique.1 studentA,
   student_person_unique.2.1 [studentA] studentC ⟨studentA, by simp, by decide⟩,
   student_person_unique.2.2 [studentA]
     (ReachableStudents.step [] [studentA] studentA ReachableStudents.nil rfl)⟩

/-- C5: in every reachable page table, no page is among its own
ancestors: following parent pointers from a page never returns to it. -/
theorem page_not_own_ancestor (db : List Page) (h : ReachablePages db)
    (p : Page) (_hp : p ∈ db) : ¬ Anc db p.pid p.pid :=
  (reachable_pages_inv h).2 p.pid

/-- Witness for C5: a concrete one-page table is reachable and its page
is not its own ancestor. -/
theorem page_not_own_ancestor_witness :
    ReachablePages [pageA] ∧ ¬ Anc [pageA] pageA.pid pageA.pid := by
  have hre : ReachablePages [pageA] :=
    ReachablePages.step [] ([] ++ [pageA]) ReachablePages.nil
      (PageStep.add [] pageA (by simp) (by simp [pageA]))
  exact ⟨hre, page_not_own_ancestor [pageA] hre pageA (by simp)⟩

/-- C6: deleting the entity a generic `(content_type, object_id)`
reference points at leaves every referencing `Assessment` and `Page` row
stored unchanged — the referencing tables are untouched — and the
reference afterwards dangles: it resolves to nothing. -/
theorem delete_target_no_cascade (db : CoursesDB) (k : ContentKind) (i : Nat)
    (a : Assessment) (pg : Page)
    (ha : a ∈ db.assessments) (_hak : a.content_type = k) (_hai : a.object_id = i)
    (hpg : pg ∈ db.pages) (_hpk : pg.content_type = some k)
    (_hpi : pg.object_id = some i) :
    (deleteEntity db k i).assessments = db.assessments ∧
    (deleteEntity db k i).pages = db.pages ∧
    a ∈ (deleteEntity db k i).assessments ∧
    pg ∈ (deleteEntity db k i).pages ∧
    resolveRef (deleteEntity db k i) k i = false := by
  cases k with
  | course =>
    refine ⟨rfl, rfl, ha, hpg, ?_⟩
    simp [deleteEntity, resolveRef, List.mem_filter]
  | activity =>
    refine ⟨rfl, rfl, ha, hpg, ?_⟩
    simp [deleteEntity, resolveRef, List.mem_filter]

/-- Witness for C6 at the concrete database `dbX`: deleting `courseX`
leaves `assessX` and `pageX` stored and their references dangling. -/
theorem delete_target_no_cascade_witness :
    (deleteEntity dbX ContentKind.course 1).assessments = dbX.assessments ∧
    (deleteEntity dbX ContentKind.course 1).pages = dbX.pages ∧
    assessX ∈ (deleteEntity dbX ContentKind.course 1).assessments ∧
    pageX ∈ (deleteEntity dbX ContentKind.course 1).pages ∧
    resolveRef (deleteEntity dbX ContentKind.course 1) ContentKind.course 1 = false :=
  delete_target_no_cascade dbX ContentKind.course 1 assessX pageX
    (by simp [dbX]) rfl rfl (by simp [dbX]) rfl rfl

/-- The single active pattern `^$` matches exactly the empty remainder. -/
theorem patternMatches_anchor (s : String) :
    patternMatches "^$" s = decide (s.data = []) := rfl

/-- Url resolution computed: a path resolves exactly when its remainder
after stripping the leading slash is empty, and then to `index`. -/
theorem resolveUrl_eq (q : String) :
    resolveUrl q = if (stripSlash q).data = [] then some "index" else none := by
  have h1 : resolveUrl q =
      if patternMatches "^$" (stripSlash q) then some "index" else none := by
    unfold resolveUrl urlpatterns
    rw [List.find?_cons]
    cases h : patternMatches "^$" (stripSlash q) with
    | true => rfl
    | false => rfl
  rw [h1, patternMatches_anchor]
  by_cases hq : (stripSlash q).data = []
  · simp [hq]
  · simp [hq]

/-- C8: the students url configuration has exactly one active entry; it
maps the request path made of the bare slash (whose remainder after
stripping the leading slash is empty) to the `index` view, and nothing
else resolves. -/
theorem students_url_surface :
    urlpatterns = [("^$", "index")] ∧
    resolveUrl "/" = some "index" ∧
    (∀ path v, resolveUrl path = some v → v = "index" ∧ stripSlash path = "") := by
  refine ⟨rfl, ?_, ?_⟩
  · rw [resolveUrl_eq]
    rw [if_pos (by decide)]
  · intro path v h
    rw [resolveUrl_eq] at h
    by_cases hq : (stripSlash path).data = []
    · rw [if_pos hq] at h
      have hv : v = "index" := by
        simpa using h.symm
      have hs : stripSlash path = "" := by
        cases hsp : stripSlash path with
        | mk d =>
          rw [hsp] at hq
          simp at hq
          rw [hq]
      exact ⟨hv, hs⟩
    · rw [if_neg hq] at h
      cases h

/-- Witness for C8: the bare slash resolves to the `index` view. -/
theorem students_url_surface_witness :
    "index" = "index" ∧ stripSlash "/" = "" :=
  students_url_surface.2.2 "/" "index" students_url_surface.2.1
